import Mathlib

/-!
Verification of the hh.ru ETL pipeline (src/api_client.py, src/db_manager.py,
src/main.py) against its natural-language specification.

The relational store (PostgreSQL tables `employers` and `vacancies`) is
modelled as explicit lists of rows; the SQL statements of `db_manager.py`
are translated operation by operation (INSERT ... ON CONFLICT, LEFT JOIN /
GROUP BY, AVG, LIKE, ORDER BY).  The numeric result of `AVG` (SQL `numeric`,
converted to a Python float) is idealised as an exact rational.  The remote
API is modelled as a pair of response functions.
-/

namespace HHVerify

/-- A row of the `employers` table (the SERIAL surrogate key is omitted:
it is never consulted by any query of `db_manager.py`). -/
structure EmployerRow where
  employer_id : Int
  name : String
  url : String
  vacancies_count : Int
deriving DecidableEq

/-- A row of the `vacancies` table (again without the surrogate key). -/
structure VacancyRow where
  vacancy_id : Int
  employer_id : Int
  title : String
  salary_from : Option Int
  salary_to : Option Int
  currency : Option String
  url : String
deriving DecidableEq

/-- The database state: contents of the two tables, in insertion order. -/
structure DBState where
  employers : List EmployerRow
  vacancies : List VacancyRow
deriving DecidableEq

/-- The `salary` sub-object of a vacancy JSON record; each key is optional
(`salary.get` in `add_vacancy`). -/
structure SalaryRec where
  salary_from : Option Int
  salary_to : Option Int
  currency : Option String
deriving DecidableEq

/-- A vacancy JSON record as fetched from the API.  `id` and `name` are
optional because `add_vacancy` checks for their presence; `employer` is the
employer reference embedded in the record, which `add_vacancy` never reads. -/
structure VacRecord where
  id : Option Int
  name : Option String
  salary : Option SalaryRec
  alternate_url : Option String
  employer : Option Int
deriving DecidableEq

/-- An employer JSON record as consumed by `add_employer`, which reads
`id`, `name`, `alternate_url` unconditionally and `open_vacancies` with
default 0. -/
structure EmployerRec where
  id : Int
  name : String
  alternate_url : String
  open_vacancies : Option Int
deriving DecidableEq

/-- Events recorded by the logger during a write operation. -/
inductive LogEvent where
  | warnMissingFields
  | errInsert
deriving DecidableEq

/-- The employer row produced from an API record: `employer['id']`,
`employer['name']`, `employer['alternate_url']`,
`employer.get('open_vacancies', 0)`. -/
def empRow (rec : EmployerRec) : EmployerRow :=
  { employer_id := rec.id
    name := rec.name
    url := rec.alternate_url
    vacancies_count := rec.open_vacancies.getD 0 }

/-- `DBManager.add_employer`: `INSERT INTO employers ... ON CONFLICT
(employer_id) DO UPDATE SET name, url, vacancies_count`.  On conflict the
existing row keeps its key and receives the new field values; otherwise the
new row is appended. -/
def add_employer (rec : EmployerRec) (st : DBState) : DBState :=
  if st.employers.any (fun r => r.employer_id == rec.id) then
    { st with employers :=
        st.employers.map (fun r =>
          if r.employer_id == rec.id then empRow rec else r) }
  else
    { st with employers := st.employers ++ [empRow rec] }

/-- `DBManager.add_vacancy`: skips the record with a warning when `id` or
`name` is absent; otherwise `INSERT INTO vacancies ... ON CONFLICT
(vacancy_id) DO NOTHING`.  A row that conflicts on `vacancy_id` is not
inserted and no constraint on it is checked; a non-conflicting row whose
`employer_id` violates the foreign key makes the INSERT raise, which the
`except` branch turns into a rollback plus an error log entry. -/
def add_vacancy (rec : VacRecord) (employer_id : Int) (st : DBState) :
    DBState × List LogEvent :=
  match rec.id, rec.name with
  | some i, some n =>
    let salary_from := rec.salary.bind (fun s => s.salary_from)
    let salary_to := rec.salary.bind (fun s => s.salary_to)
    let currency := rec.salary.bind (fun s => s.currency)
    let url := rec.alternate_url.getD "N/A"
    if st.vacancies.any (fun r => r.vacancy_id == i) then
      (st, [])
    else if st.employers.any (fun r => r.employer_id == employer_id) then
      ({ st with vacancies := st.vacancies ++
          [{ vacancy_id := i, employer_id := employer_id, title := n,
             salary_from := salary_from, salary_to := salary_to,
             currency := currency, url := url }] }, [])
    else
      (st, [LogEvent.errInsert])
  | _, _ => (st, [LogEvent.warnMissingFields])

/-- Well-formedness enforced by the schema: `employer_id` is UNIQUE in
`employers`, `vacancy_id` is UNIQUE in `vacancies`, and every vacancy's
`employer_id` references an existing employer (FOREIGN KEY). -/
def wf (st : DBState) : Prop :=
  (st.employers.map (fun r => r.employer_id)).Nodup ∧
  (st.vacancies.map (fun r => r.vacancy_id)).Nodup ∧
  ∀ v ∈ st.vacancies, ∃ e ∈ st.employers, e.employer_id = v.employer_id

instance (st : DBState) : Decidable (wf st) := by
  unfold wf; infer_instance

/-- A row of the joined `vacancies JOIN employers` result used by
`get_all_vacancies`, `get_vacancies_with_higher_salary` and
`get_vacancies_with_keyword`. -/
structure JoinedRow where
  company_name : String
  vacancy_title : String
  salary_from : Option Int
  salary_to : Option Int
  currency : Option String
  url : String
deriving DecidableEq

/-- The joined row built from an employer row and a vacancy row. -/
def mkJoined (e : EmployerRow) (v : VacancyRow) : JoinedRow :=
  { company_name := e.name
    vacancy_title := v.title
    salary_from := v.salary_from
    salary_to := v.salary_to
    currency := v.currency
    url := v.url }

/-- `FROM vacancies v JOIN employers e ON v.employer_id = e.employer_id`. -/
def joinRows (st : DBState) : List JoinedRow :=
  st.vacancies.flatMap (fun v =>
    (st.employers.filter (fun e => e.employer_id == v.employer_id)).map
      (fun e => mkJoined e v))

/-- First-occurrence deduplication of a list of names; models the set of
groups produced by `GROUP BY e.name`. -/
def distinctNames : List String → List String
  | [] => []
  | n :: rest => n :: (distinctNames rest).filter (fun m => m != n)

/-- `COUNT(v.id)` for the group of employers named `n`: the number of join
rows with a non-null vacancy, i.e. the total number of vacancies owned by
employers carrying that name. -/
def nameCount (st : DBState) (n : String) : Nat :=
  ((st.employers.filter (fun e => e.name == n)).map (fun e =>
    (st.vacancies.filter (fun v => v.employer_id == e.employer_id)).length)).sum

/-- Descending order on the count component, for `ORDER BY vacancy_count
DESC`. -/
def countGE (a b : String × Nat) : Prop := b.2 ≤ a.2

instance : DecidableRel countGE := fun a b => by
  unfold countGE; infer_instance

instance : IsTotal (String × Nat) countGE :=
  ⟨fun a b => le_total b.2 a.2⟩

instance : IsTrans (String × Nat) countGE :=
  ⟨fun _ _ _ h1 h2 => le_trans h2 h1⟩

/-- `DBManager.get_companies_and_vacancies_count`: `SELECT e.name,
COUNT(v.id) FROM employers e LEFT JOIN vacancies v ON e.employer_id =
v.employer_id GROUP BY e.name ORDER BY vacancy_count DESC`.  Grouping is by
employer NAME; the left join makes a name with no vacancies contribute a
single null-vacancy row, which `COUNT(v.id)` counts as 0. -/
def get_companies_and_vacancies_count (st : DBState) : List (String × Nat) :=
  List.insertionSort countGE
    ((distinctNames (st.employers.map (fun e => e.name))).map
      (fun n => (n, nameCount st n)))

/-- Non-null values of the `salary_from` column, in table order. -/
def salaryVals (st : DBState) : List Int :=
  st.vacancies.filterMap (fun v => v.salary_from)

/-- `DBManager.get_avg_salary`: `SELECT AVG(salary_from) FROM vacancies
WHERE salary_from IS NOT NULL`, then Python `float(x) if x else 0.0`: the
SQL average is NULL when no row qualifies, and the falsy test maps both
NULL and an exact-zero average to 0.0.  The numeric value is idealised as a
rational. -/
def get_avg_salary (st : DBState) : ℚ :=
  let vals := salaryVals st
  let avgOpt : Option ℚ :=
    if vals.isEmpty then none
    else some (((vals.map (fun s => (s : ℚ))).sum) / (vals.length : ℚ))
  match avgOpt with
  | none => 0
  | some x => if x = 0 then 0 else x

/-- Descending order on `salary_from` (`ORDER BY v.salary_from DESC`); the
rows reaching this sort all carry a non-null `salary_from`. -/
def salaryGE (a b : JoinedRow) : Prop :=
  b.salary_from.getD 0 ≤ a.salary_from.getD 0

instance : DecidableRel salaryGE := fun a b => by
  unfold salaryGE; infer_instance

instance : IsTotal JoinedRow salaryGE :=
  ⟨fun a b => le_total (b.salary_from.getD 0) (a.salary_from.getD 0)⟩

instance : IsTrans JoinedRow salaryGE :=
  ⟨fun _ _ _ h1 h2 => le_trans h2 h1⟩

/-- `DBManager.get_vacancies_with_higher_salary`: returns `[]` when
`get_avg_salary` is 0.0, otherwise the joined rows with `salary_from >
avg` (NULL compares unknown, hence is excluded), ordered by `salary_from`
descending. -/
def get_vacancies_with_higher_salary (st : DBState) : List JoinedRow :=
  let avg := get_avg_salary st
  if avg = 0 then []
  else
    List.insertionSort salaryGE
      ((joinRows st).filter (fun row =>
        match row.salary_from with
        | some s => decide (avg < (s : ℚ))
        | none => false))

/-- SQL `LOWER`, applied to the character data of a string.  `Char.toLower`
folds the basic latin range, which is the behaviour relevant to the
specified examples. -/
def lowerChars (s : String) : List Char := s.data.map Char.toLower

/-- The parameter passed for the `LIKE` placeholder:
`search_pattern = "%" + keyword + "%"`. -/
def search_pattern (keyword : String) : String := "%" ++ keyword ++ "%"

/-- SQL `LIKE` matching over characters: `%` matches any sequence, `_` any
single character, a backslash escapes the next pattern character, and any
other character matches itself. -/
def likeMatch : List Char → List Char → Bool
  | [], [] => true
  | [], _ :: _ => false
  | c :: ps, [] => if c = '%' then likeMatch ps [] else false
  | c :: ps, d :: s =>
    if c = '\\' then
      if ps.isEmpty then false
      else (ps.headD c == d) && likeMatch ps.tail s
    else if c = '%' then likeMatch ps (d :: s) || likeMatch (c :: ps) s
    else if c = '_' then likeMatch ps s
    else c == d && likeMatch ps s
termination_by p s => (p.length, s.length)

/-- Lexicographic order on (company name, vacancy title), for
`ORDER BY e.name, v.title`. -/
def byCompanyTitle (a b : JoinedRow) : Prop :=
  a.company_name < b.company_name ∨
    (a.company_name = b.company_name ∧ a.vacancy_title ≤ b.vacancy_title)

instance : DecidableRel byCompanyTitle := fun a b => by
  unfold byCompanyTitle; infer_instance

instance : IsTotal JoinedRow byCompanyTitle := by
  constructor
  intro a b
  rcases lt_trichotomy a.company_name b.company_name with h | h | h
  · exact Or.inl (Or.inl h)
  · rcases le_total a.vacancy_title b.vacancy_title with h2 | h2
    · exact Or.inl (Or.inr ⟨h, h2⟩)
    · exact Or.inr (Or.inr ⟨h.symm, h2⟩)
  · exact Or.inr (Or.inl h)

instance : IsTrans JoinedRow byCompanyTitle := by
  constructor
  intro a b c hab hbc
  rcases hab with h1 | ⟨h1, h1t⟩
  · rcases hbc with h2 | ⟨h2, _⟩
    · exact Or.inl (lt_trans h1 h2)
    · exact Or.inl (h2 ▸ h1)
  · rcases hbc with h2 | ⟨h2, h2t⟩
    · exact Or.inl (h1 ▸ h2)
    · exact Or.inr ⟨h1.trans h2, le_trans h1t h2t⟩

/-- `DBManager.get_vacancies_with_keyword`: joined rows with
`LOWER(v.title) LIKE LOWER('%' + keyword + '%')`, ordered by company name
then title. -/
def get_vacancies_with_keyword (st : DBState) (keyword : String) :
    List JoinedRow :=
  List.insertionSort byCompanyTitle
    ((joinRows st).filter (fun row =>
      likeMatch (lowerChars (search_pattern keyword))
        (lowerChars row.vacancy_title)))

/-- The remote API, modelled as its two response functions: employer lookup
by id (None for a non-200 response) and the vacancy page for a given
employer and page number (None for a non-200 response, otherwise the
`items` list of the JSON body). -/
structure ApiClient where
  employer_resp : Int → Option EmployerRec
  page_resp : Int → Nat → Option (List VacRecord)

/-- `HHApiClient.get_employer`: the response body on a 200 status, None
otherwise. -/
def get_employer (api : ApiClient) (employer_id : Int) : Option EmployerRec :=
  api.employer_resp employer_id

/-- The paging loop of `HHApiClient.get_vacancies_by_employer`: starting
from `page`, stop on a non-200 response or an empty `items` list; otherwise
append the items, advance the page and stop once the next page number
reaches 20. -/
def getVacanciesAux (fetch : Nat → Option (List VacRecord)) (page : Nat)
    (acc : List VacRecord) : List VacRecord :=
  match fetch page with
  | none => acc
  | some items =>
    if items.isEmpty then acc
    else
      let acc2 := acc ++ items
      if page + 1 ≥ 20 then acc2
      else getVacanciesAux fetch (page + 1) acc2
termination_by 20 - page

/-- `HHApiClient.get_vacancies_by_employer`: run the paging loop from page
0 with an empty accumulator. -/
def get_vacancies_by_employer (api : ApiClient) (employer_id : Int) :
    List VacRecord :=
  getVacanciesAux (api.page_resp employer_id) 0 []

/-- One iteration of the loop in `load_data_to_db`: fetch the employer;
on a miss, log and leave the state unchanged; otherwise upsert the
employer, then fetch its vacancies and insert them one by one, always
passing the configured `emp_id` as the owning employer. -/
def process_employer (api : ApiClient) (st : DBState) (emp_id : Int) :
    DBState :=
  match get_employer api emp_id with
  | none => st
  | some employer =>
    let st1 := add_employer employer st
    (get_vacancies_by_employer api emp_id).foldl
      (fun s v => (add_vacancy v emp_id s).1) st1

/-- `main.load_data_to_db`: process the configured employer ids strictly in
list order. -/
def load_data_to_db (api : ApiClient) (st : DBState)
    (employer_ids : List Int) : DBState :=
  employer_ids.foldl (process_employer api) st

/-- A character with no special meaning in a LIKE pattern: not the
any-sequence wildcard, not the single-character wildcard, not the escape. -/
def noMetaChar (c : Char) : Prop := c ≠ '%' ∧ c ≠ '_' ∧ c ≠ '\\'

/-- `leadsIn n h` decides whether `n` is an initial segment of `h`. -/
def leadsIn : List Char → List Char → Bool
  | [], _ => true
  | _ :: _, [] => false
  | c :: cs, d :: ds => c == d && leadsIn cs ds

/-- `occursIn n h` decides whether `n` occurs contiguously inside `h`. -/
def occursIn (n : List Char) : List Char → Bool
  | [] => leadsIn n []
  | d :: h2 => leadsIn n (d :: h2) || occursIn n h2

/-- Case-insensitive substring containment, the reading of the claim:
the lowercased keyword occurs inside the lowercased title. -/
def containsCI (kw title : String) : Bool :=
  occursIn (lowerChars kw) (lowerChars title)

/-- A keyword whose lowercased characters carry no LIKE wildcard or
escape character. -/
def noMetaKw (kw : String) : Prop :=
  ∀ c ∈ lowerChars kw, noMetaChar c

instance (kw : String) : Decidable (noMetaKw kw) := by
  unfold noMetaKw noMetaChar; infer_instance

/-- The store used by the keyword-search counterexample. -/
def keywordCexState : DBState :=
  ⟨[⟨1, "Acme", "u", 0⟩], [⟨10, 1, "Cook", none, none, none, "x"⟩]⟩

/-- The store used by the keyword-search witness. -/
def keywordWitnessState : DBState :=
  ⟨[⟨1, "Acme", "u", 0⟩],
   [⟨10, 1, "Senior Engineer", none, none, none, "x"⟩]⟩

/-- A page of 101 records: the client requests `per_page = 100` but never
checks the size of the answer. -/
def oversizePage : List VacRecord :=
  List.replicate 101 ⟨some 1, some "t", none, none, none⟩

/-- A source that always returns the oversize page. -/
def oversizeApi : ApiClient :=
  ⟨fun _ => none, fun _ _ => some oversizePage⟩

/-- A full page of exactly 100 records. -/
def fullPage : List VacRecord :=
  List.replicate 100 ⟨some 1, some "t", none, none, none⟩

/-- A source that always returns the full page. -/
def fullApi : ApiClient :=
  ⟨fun _ => none, fun _ _ => some fullPage⟩

/-- The store of the specification's worked example: salary lower bounds
1000, 3000 and 5000 under a single employer. -/
def avgExampleState : DBState :=
  ⟨[⟨1, "Acme", "u", 3⟩],
   [⟨10, 1, "Senior Engineer", some 1000, none, none, "x"⟩,
    ⟨11, 1, "ENGINEER II", some 3000, none, none, "y"⟩,
    ⟨12, 1, "Cook", some 5000, none, none, "z"⟩]⟩

/-- A store with two employers sharing the name "Acme": id 1 with no
vacancies, id 2 with one; used by the grouping theorems for C1. -/
def dupNameState : DBState :=
  ⟨[⟨1, "Acme", "u", 0⟩, ⟨2, "Acme", "u2", 1⟩],
   [⟨10, 2, "T", none, none, none, "x"⟩]⟩

/-- The employer record returned by the witness source. -/
def witnessEmployer : EmployerRec := ⟨7, "Acme", "u", some 1⟩

/-- The vacancy record returned by the witness source. -/
def witnessVacancy : VacRecord := ⟨some 10, some "Cook", none, none, some 99⟩

/-- A witness source: employer 7 exists, page 0 holds one vacancy, later
pages are empty. -/
def witnessApi : ApiClient :=
  ⟨fun j => if j = 7 then some witnessEmployer else none,
   fun _ p => if p = 0 then some [witnessVacancy] else some []⟩

/-! ### Helper lemmas about the write operations -/

/-- `add_employer` never touches the `vacancies` table. -/
theorem add_employer_vacancies (c : EmployerRec) (st : DBState) :
    (add_employer c st).vacancies = st.vacancies := by
  unfold add_employer; split <;> rfl

/-- `add_vacancy` never touches the `employers` table. -/
theorem add_vacancy_employers (v : VacRecord) (e : Int) (st : DBState) :
    ((add_vacancy v e st).1).employers = st.employers := by
  rcases v with ⟨vid, vname, vsal, vurl, vemp⟩
  cases vid <;> cases vname
  · rfl
  · rfl
  · rfl
  · simp only [add_vacancy]
    split_ifs <;> rfl

/-! ### Claim C8 -/

/-- Claim C8: for every vacancy record missing the external id field or the
title field, `add_vacancy` records a warning and leaves the database state
unchanged; the function is total, so no exception reaches the caller. -/
theorem claim_C8_missing_fields_noop (st : DBState) (rec : VacRecord)
    (e : Int) (h : rec.id = none ∨ rec.name = none) :
    add_vacancy rec e st = (st, [LogEvent.warnMissingFields]) := by
  rcases h with h | h
  · cases hn : rec.name <;> simp [add_vacancy, h, hn]
  · cases hi : rec.id <;> simp [add_vacancy, h, hi]

/-- Witness for C8 at a concrete record with no id field. -/
theorem claim_C8_witness :
    ((⟨none, some "Cook", none, none, none⟩ : VacRecord).id = none ∨
      (⟨none, some "Cook", none, none, none⟩ : VacRecord).name = none)
    ∧ add_vacancy ⟨none, some "Cook", none, none, none⟩ 1
        ⟨[⟨1, "Acme", "u", 0⟩], []⟩ =
      (⟨[⟨1, "Acme", "u", 0⟩], []⟩, [LogEvent.warnMissingFields]) :=
  ⟨Or.inl rfl,
    claim_C8_missing_fields_noop ⟨[⟨1, "Acme", "u", 0⟩], []⟩
      ⟨none, some "Cook", none, none, none⟩ 1 (Or.inl rfl)⟩

/-! ### Claim C6 -/

/-- Claim C6: when the database already holds a vacancy with external id
`i`, calling `add_vacancy` with any record carrying that id leaves the
database state completely unchanged (ON CONFLICT (vacancy_id) DO NOTHING). -/
theorem claim_C6_conflict_insert_noop (st : DBState) (rec : VacRecord)
    (e : Int) (i : Int) (hid : rec.id = some i)
    (hex : ∃ r ∈ st.vacancies, r.vacancy_id = i) :
    (add_vacancy rec e st).1 = st := by
  have hany : st.vacancies.any (fun r => r.vacancy_id == i) = true := by
    rw [List.any_eq_true]
    obtain ⟨r, hr, hri⟩ := hex
    exact ⟨r, hr, by simp [hri]⟩
  cases hn : rec.name
  · simp [add_vacancy, hid, hn]
  · simp [add_vacancy, hid, hn, hany]

/-- Witness for C6: re-inserting vacancy id 10 with entirely different
field values leaves the stored row untouched. -/
theorem claim_C6_witness :
    ((⟨some 10, some "Changed", some ⟨some 99, some 100, some "EUR"⟩,
        some "new-url", some 2⟩ : VacRecord).id = some 10)
    ∧ (∃ r ∈ (⟨[⟨1, "Acme", "u", 0⟩],
          [⟨10, 1, "Cook", some 1000, none, none, "x"⟩]⟩ : DBState).vacancies,
        r.vacancy_id = 10)
    ∧ (add_vacancy
        ⟨some 10, some "Changed", some ⟨some 99, some 100, some "EUR"⟩,
          some "new-url", some 2⟩ 1
        ⟨[⟨1, "Acme", "u", 0⟩],
          [⟨10, 1, "Cook", some 1000, none, none, "x"⟩]⟩).1 =
      ⟨[⟨1, "Acme", "u", 0⟩], [⟨10, 1, "Cook", some 1000, none, none, "x"⟩]⟩ :=
  ⟨rfl, by decide,
    claim_C6_conflict_insert_noop _ _ 1 10 rfl (by decide)⟩

/-! ### Claim C7: idempotent employer upsert -/

/-- Updating a list in which no element matches the key, then filtering for
the key, yields nothing. -/
theorem filter_upd_eq_nil (c : EmployerRec) (l : List EmployerRow)
    (h : ∀ x ∈ l, x.employer_id ≠ c.id) :
    (l.map (fun r => if r.employer_id == c.id then empRow c else r)).filter
      (fun r => r.employer_id == c.id) = [] := by
  induction l with
  | nil => rfl
  | cons x xs ih =>
    have hx : x.employer_id ≠ c.id := h x (List.mem_cons_self x xs)
    have hxb : (x.employer_id == c.id) = false := by simpa using hx
    simp only [List.map_cons, List.filter_cons, hxb, Bool.false_eq_true,
      if_false]
    exact ih (fun y hy => h y (List.mem_cons_of_mem x hy))

/-- With unique keys and a conflicting row present, the ON CONFLICT update
leaves exactly one row with the key, carrying the new field values. -/
theorem filter_map_upd (c : EmployerRec) (l : List EmployerRow)
    (hnd : (l.map (fun r => r.employer_id)).Nodup)
    (hex : ∃ r ∈ l, r.employer_id = c.id) :
    (l.map (fun r => if r.employer_id == c.id then empRow c else r)).filter
      (fun r => r.employer_id == c.id) = [empRow c] := by
  induction l with
  | nil => simp at hex
  | cons x xs ih =>
    rw [List.map_cons, List.nodup_cons] at hnd
    by_cases hx : x.employer_id = c.id
    · have hxb : (x.employer_id == c.id) = true := by simpa using hx
      have htail : ∀ y ∈ xs, y.employer_id ≠ c.id := by
        intro y hy hyc
        exact hnd.1 (hx ▸ hyc ▸ List.mem_map_of_mem (fun r => r.employer_id) hy)
      simp only [List.map_cons, List.filter_cons, hxb, if_true,
        filter_upd_eq_nil c xs htail]
      simp [empRow]
    · obtain ⟨r, hr, hrc⟩ := hex
      rcases List.mem_cons.mp hr with rfl | hr2
      · exact absurd hrc hx
      · have hxb : (x.employer_id == c.id) = false := by simpa using hx
        simp only [List.map_cons, List.filter_cons, hxb, Bool.false_eq_true,
          if_false]
        exact ih hnd.2 ⟨r, hr2, hrc⟩

/-- After `add_employer c`, the rows with key `c.id` are exactly the single
updated row (assuming the UNIQUE constraint held before). -/
theorem add_employer_filter_self (c : EmployerRec) (st : DBState)
    (hnd : (st.employers.map (fun r => r.employer_id)).Nodup) :
    (add_employer c st).employers.filter (fun r => r.employer_id == c.id) =
      [empRow c] := by
  unfold add_employer
  split
  case isTrue h =>
    rw [List.any_eq_true] at h
    obtain ⟨r, hr, hrb⟩ := h
    exact filter_map_upd c st.employers hnd ⟨r, hr, by simpa using hrb⟩
  case isFalse h =>
    have hnone : ∀ x ∈ st.employers, x.employer_id ≠ c.id := by
      intro x hx hxc
      exact h (List.any_eq_true.mpr ⟨x, hx, by simp [hxc]⟩)
    simp only [List.filter_append]
    rw [List.filter_eq_nil_iff.mpr (fun x hx => by simpa using hnone x hx)]
    simp [empRow]

/-- Rows whose key differs from the upserted one survive `add_employer`. -/
theorem add_employer_keep (c : EmployerRec) (st : DBState) (r : EmployerRow)
    (hr : r ∈ st.employers) (hne : r.employer_id ≠ c.id) :
    r ∈ (add_employer c st).employers := by
  unfold add_employer
  split
  · have := List.mem_map_of_mem
      (fun x => if x.employer_id == c.id then empRow c else x) hr
    simpa [if_neg hne] using this
  · exact List.mem_append_left _ hr

/-- `add_employer` preserves the UNIQUE constraint on `employer_id`. -/
theorem add_employer_nodup (c : EmployerRec) (st : DBState)
    (hnd : (st.employers.map (fun r => r.employer_id)).Nodup) :
    ((add_employer c st).employers.map (fun r => r.employer_id)).Nodup := by
  unfold add_employer
  split
  case isTrue h =>
    have heq : (st.employers.map
        (fun r => if r.employer_id == c.id then empRow c else r)).map
          (fun r => r.employer_id) =
        st.employers.map (fun r => r.employer_id) := by
      rw [List.map_map]
      refine List.map_congr_left (fun r _ => ?_)
      by_cases hrc : r.employer_id = c.id
      · simp [Function.comp, hrc, empRow]
      · simp [Function.comp, hrc]
    show ((st.employers.map
        (fun r => if r.employer_id == c.id then empRow c else r)).map
          (fun r => r.employer_id)).Nodup
    rw [heq]; exact hnd
  case isFalse h =>
    have hnone : c.id ∉ st.employers.map (fun r => r.employer_id) := by
      intro hmem
      obtain ⟨r, hr, hrc⟩ := List.mem_map.mp hmem
      exact h (List.any_eq_true.mpr ⟨r, hr, by simp [hrc]⟩)
    simp only [List.map_append]
    rw [List.nodup_append]
    exact ⟨hnd, List.nodup_singleton _, by simpa [empRow] using hnone⟩

/-- Claim C7: any nonempty sequence of `add_employer` calls sharing the
external id `e` leaves exactly one employer row with that id, whose name,
URL and open-vacancy count are those of the most recent call; rows with
other ids are never deleted, and the vacancies table is untouched. -/
theorem claim_C7_employer_upsert (st : DBState) (cs : List EmployerRec)
    (e : Int) (hnd : (st.employers.map (fun r => r.employer_id)).Nodup)
    (hne : cs ≠ []) (hall : ∀ c ∈ cs, c.id = e) :
    ((cs.foldl (fun s c => add_employer c s) st).employers.filter
        (fun r => r.employer_id == e) = [empRow (cs.getLast hne)])
    ∧ ((cs.foldl (fun s c => add_employer c s) st).vacancies = st.vacancies)
    ∧ (∀ r ∈ st.employers, r.employer_id ≠ e →
        r ∈ (cs.foldl (fun s c => add_employer c s) st).employers) := by
  induction cs generalizing st with
  | nil => exact absurd rfl hne
  | cons c cs ih =>
    have hc : c.id = e := hall c (List.mem_cons_self c cs)
    cases cs with
    | nil =>
      simp only [List.foldl_cons, List.foldl_nil, List.getLast_singleton]
      refine ⟨?_, add_employer_vacancies c st, ?_⟩
      · rw [← hc]; exact add_employer_filter_self c st hnd
      · intro r hr hre
        exact add_employer_keep c st r hr (fun hrc => hre (hrc.trans hc))
    | cons c2 cs2 =>
      have step := ih (add_employer c st)
        (add_employer_nodup c st hnd)
        (List.cons_ne_nil c2 cs2)
        (fun d hd => hall d (List.mem_cons_of_mem c hd))
      rw [List.foldl_cons]
      refine ⟨?_, ?_, ?_⟩
      · rw [List.getLast_cons (List.cons_ne_nil c2 cs2)]
        exact step.1
      · rw [step.2.1, add_employer_vacancies]
      · intro r hr hre
        exact step.2.2 r
          (add_employer_keep c st r hr (fun hrc => hre (hrc.trans hc))) hre

/-- Witness for C7: upserting id 5 twice over a store holding ids 5 and 9
keeps one updated row for id 5 and preserves the row with id 9. -/
theorem claim_C7_witness :
    ((⟨[⟨5, "Old", "o", 1⟩, ⟨9, "Other", "q", 7⟩], []⟩ :
        DBState).employers.map (fun r => r.employer_id)).Nodup
    ∧ (([⟨5, "A", "a", some 2⟩, ⟨5, "B", "b", none⟩] :
        List EmployerRec) ≠ [])
    ∧ (∀ c ∈ ([⟨5, "A", "a", some 2⟩, ⟨5, "B", "b", none⟩] :
        List EmployerRec), c.id = 5)
    ∧ ((([⟨5, "A", "a", some 2⟩, ⟨5, "B", "b", none⟩] :
          List EmployerRec).foldl (fun s c => add_employer c s)
          ⟨[⟨5, "Old", "o", 1⟩, ⟨9, "Other", "q", 7⟩], []⟩).employers.filter
        (fun r => r.employer_id == 5) = [⟨5, "B", "b", 0⟩]) := by
  refine ⟨by decide, by decide, by decide, ?_⟩
  exact (claim_C7_employer_upsert
    ⟨[⟨5, "Old", "o", 1⟩, ⟨9, "Other", "q", 7⟩], []⟩
    [⟨5, "A", "a", some 2⟩, ⟨5, "B", "b", none⟩] 5
    (by decide) (by decide) (by decide)).1

/-! ### Claim C4: pagination guard -/

/-- Against a source answering every page with the same nonempty item list,
the paging loop started at `page = 20 - k` collects exactly `k` more pages. -/
theorem getVacanciesAux_const (L : List VacRecord) (hL : L ≠ [])
    (fetch : Nat → Option (List VacRecord)) (hf : ∀ p, fetch p = some L) :
    ∀ k page acc, 1 ≤ k → page + k = 20 →
      (getVacanciesAux fetch page acc).length = acc.length + k * L.length := by
  intro k
  induction k with
  | zero => omega
  | succ k ih =>
    intro page acc h1 hpk
    rw [getVacanciesAux, hf page]
    have hLe : L.isEmpty = false := by
      cases L with
      | nil => exact absurd rfl hL
      | cons a l => rfl
    simp only [hLe, Bool.false_eq_true, if_false]
    cases k with
    | zero =>
      have hp : page = 19 := by omega
      rw [if_pos (by omega)]
      simp [List.length_append]
    | succ k2 =>
      rw [if_neg (by omega)]
      have := ih (page + 1) (acc ++ L) (by omega) (by omega)
      rw [this, List.length_append]
      ring

/-- When every delivered page holds at most 100 items, the loop started at
`page = 20 - k` adds at most `k * 100` records. -/
theorem getVacanciesAux_bound (fetch : Nat → Option (List VacRecord))
    (hb : ∀ p it, fetch p = some it → it.length ≤ 100) :
    ∀ k page acc, 1 ≤ k → page + k = 20 →
      (getVacanciesAux fetch page acc).length ≤ acc.length + k * 100 := by
  intro k
  induction k with
  | zero => omega
  | succ k ih =>
    intro page acc h1 hpk
    rw [getVacanciesAux]
    cases hf : fetch page with
    | none => simp
    | some items =>
      by_cases hie : items.isEmpty
      · simp only [hie, if_true]; omega
      · simp only [hie, Bool.false_eq_true, if_false]
        have hlen : items.length ≤ 100 := hb page items hf
        cases k with
        | zero =>
          rw [if_pos (by omega)]
          rw [List.length_append]; omega
        | succ k2 =>
          rw [if_neg (by omega)]
          have := ih (page + 1) (acc ++ items) (by omega) (by omega)
          rw [List.length_append] at this
          omega

/-- Claim C4 (amended): against a source that answers every page with a
full page of 100 items, `get_vacancies_by_employer` stops after exactly 20
pages with exactly 2000 records; and against every source each of whose
delivered pages holds at most 100 items, it returns at most 2000 records.
Termination for every source is witnessed by the function being total. -/
theorem claim_C4_pagination_cap (api : ApiClient) (e : Int) :
    (∀ L : List VacRecord, (∀ p, api.page_resp e p = some L) →
      L.length = 100 → (get_vacancies_by_employer api e).length = 2000)
    ∧ ((∀ p it, api.page_resp e p = some it → it.length ≤ 100) →
      (get_vacancies_by_employer api e).length ≤ 2000) := by
  constructor
  · intro L hf hL
    have hLne : L ≠ [] := by
      intro h; rw [h] at hL; simp at hL
    have := getVacanciesAux_const L hLne (api.page_resp e) hf 20 0 [] (by omega)
      (by omega)
    rw [get_vacancies_by_employer, this, hL]
    norm_num
  · intro hb
    have := getVacanciesAux_bound (api.page_resp e) hb 20 0 [] (by omega)
      (by omega)
    rw [get_vacancies_by_employer]
    simpa using this

/-- Counterexample to C4 as stated: a source whose pages hold 101 items
drives `get_vacancies_by_employer` to 2020 records, beyond the claimed
universal bound of 2000. -/
theorem claim_C4_counterexample :
    (get_vacancies_by_employer oversizeApi 1).length = 2020 := by
  have h101 : oversizePage.length = 101 := by simp [oversizePage]
  have hne : oversizePage ≠ [] := by
    intro h; rw [h] at h101; simp at h101
  have := getVacanciesAux_const oversizePage hne (oversizeApi.page_resp 1)
    (fun p => rfl) 20 0 [] (by omega) (by omega)
  rw [get_vacancies_by_employer, this, h101]
  norm_num

/-- Witness for C4: the always-full source yields exactly 2000 records. -/
theorem claim_C4_witness :
    (∀ p, fullApi.page_resp 1 p = some fullPage)
    ∧ fullPage.length = 100
    ∧ (get_vacancies_by_employer fullApi 1).length = 2000 :=
  ⟨fun _ => rfl, by simp [fullPage],
    (claim_C4_pagination_cap fullApi 1).1 fullPage (fun _ => rfl)
      (by simp [fullPage])⟩

/-! ### Claim C5: average salary -/

/-- Claim C5: `get_avg_salary` is 0 when no stored vacancy has a non-null
`salary_from`, and otherwise equals the arithmetic mean of the non-null
`salary_from` values (the Python zero-falsy test maps an exact-zero mean to
0.0, which IS that mean, so the clean characterisation holds). -/
theorem claim_C5_avg_salary (st : DBState) :
    (salaryVals st = [] → get_avg_salary st = 0)
    ∧ (salaryVals st ≠ [] →
        get_avg_salary st =
          ((salaryVals st).map (fun s => (s : ℚ))).sum /
            ((salaryVals st).length : ℚ)) := by
  constructor
  · intro h
    simp [get_avg_salary, h]
  · intro h
    have hne : (salaryVals st).isEmpty = false := by
      cases hv : salaryVals st with
      | nil => exact absurd hv h
      | cons a l => rfl
    simp only [get_avg_salary, hne, Bool.false_eq_true, if_false]
    split_ifs with hz
    · exact hz.symm
    · rfl

/-- Witness for C5: over lower bounds [1000, 3000, 5000] the average is
3000. -/
theorem claim_C5_witness :
    salaryVals avgExampleState ≠ [] ∧ get_avg_salary avgExampleState = 3000 := by
  have h := (claim_C5_avg_salary avgExampleState).2 (by decide)
  refine ⟨by decide, ?_⟩
  rw [h]
  have hv : salaryVals avgExampleState = [1000, 3000, 5000] := by decide
  rw [hv]
  norm_num

/-! ### Claim C1: companies and vacancy counts -/

/-- Membership in the deduplicated name list is membership in the
original. -/
theorem mem_distinctNames (n : String) :
    ∀ l, n ∈ distinctNames l ↔ n ∈ l := by
  intro l
  induction l with
  | nil => simp [distinctNames]
  | cons m rest ih =>
    by_cases hnm : n = m
    · simp [distinctNames, hnm]
    · simp [distinctNames, List.mem_filter, ih, hnm]

/-- The deduplicated name list has no duplicates. -/
theorem nodup_distinctNames : ∀ l : List String, (distinctNames l).Nodup := by
  intro l
  induction l with
  | nil => simp [distinctNames]
  | cons m rest ih =>
    simp only [distinctNames]
    rw [List.nodup_cons]
    refine ⟨fun hmem => ?_, ih.filter _⟩
    have := (List.mem_filter.mp hmem).2
    simp at this

/-- Membership in a list of key-value pairs built by mapping a function
over keys. -/
theorem mem_map_pair {l : List String} {f : String → Nat} {p : String × Nat} :
    p ∈ l.map (fun n => (n, f n)) ↔ p.1 ∈ l ∧ p.2 = f p.1 := by
  obtain ⟨a, b⟩ := p
  simp only [List.mem_map, Prod.mk.injEq]
  constructor
  · rintro ⟨n, hn, rfl, rfl⟩
    exact ⟨hn, rfl⟩
  · rintro ⟨ha, hb⟩
    exact ⟨a, ha, rfl, hb.symm⟩

/-- Claim C1 (amended): `get_companies_and_vacancies_count` returns one
pair per distinct employer NAME (employers sharing a name are merged and
their vacancy counts summed), ordered descending by count; a name whose
employers store no vacancies still appears, with count 0. -/
theorem claim_C1_counts_per_name (st : DBState) :
    List.Sorted countGE (get_companies_and_vacancies_count st)
    ∧ ((get_companies_and_vacancies_count st).map Prod.fst).Nodup
    ∧ ∀ p : String × Nat, p ∈ get_companies_and_vacancies_count st ↔
        (p.1 ∈ st.employers.map (fun e => e.name) ∧ p.2 = nameCount st p.1) := by
  refine ⟨List.sorted_insertionSort countGE _, ?_, ?_⟩
  · have hperm := (List.perm_insertionSort countGE
      ((distinctNames (st.employers.map (fun e => e.name))).map
        (fun n => (n, nameCount st n)))).map Prod.fst
    rw [get_companies_and_vacancies_count, List.Perm.nodup_iff hperm,
      List.map_map]
    have : (Prod.fst ∘ fun n => (n, nameCount st n)) = fun n : String => n :=
      rfl
    rw [this, List.map_id']
    exact nodup_distinctNames _
  · intro p
    rw [get_companies_and_vacancies_count,
      (List.perm_insertionSort countGE _).mem_iff, mem_map_pair,
      mem_distinctNames]

/-- Witness for C1: over the duplicate-name store the merged group
("Acme", 1) is reported. -/
theorem claim_C1_witness :
    ("Acme", 1) ∈ get_companies_and_vacancies_count dupNameState :=
  ((claim_C1_counts_per_name dupNameState).2.2 ("Acme", 1)).mpr
    ⟨by decide, by decide⟩

/-- Counterexample to C1 as stated: employer 1 is stored with zero
vacancies, yet no ("Acme", 0) pair appears — grouping is by name, so the
two employers named "Acme" yield a single merged pair and the result has
fewer pairs than there are stored employers. -/
theorem claim_C1_counterexample :
    (⟨1, "Acme", "u", 0⟩ : EmployerRow) ∈ dupNameState.employers
    ∧ (dupNameState.vacancies.filter (fun v => v.employer_id == 1)).length = 0
    ∧ ("Acme", 0) ∉ get_companies_and_vacancies_count dupNameState
    ∧ (get_companies_and_vacancies_count dupNameState).length ≠
        dupNameState.employers.length := by decide

/-! ### Claim C3: vacancies above the average salary -/

/-- Characterisation of membership in the SQL join. -/
theorem mem_joinRows {st : DBState} {row : JoinedRow} :
    row ∈ joinRows st ↔ ∃ v ∈ st.vacancies, ∃ e ∈ st.employers,
      e.employer_id = v.employer_id ∧ row = mkJoined e v := by
  simp only [joinRows, List.mem_flatMap, List.mem_map, List.mem_filter]
  constructor
  · rintro ⟨v, hv, e, ⟨he, heq⟩, rfl⟩
    exact ⟨v, hv, e, he, by simpa using heq, rfl⟩
  · rintro ⟨v, hv, e, he, heq, rfl⟩
    exact ⟨v, hv, e, ⟨he, by simpa using heq⟩, rfl⟩

/-- Claim C3: when `get_avg_salary` returns the zero sentinel the result is
empty; otherwise the result consists exactly of the stored vacancies (with
their employers) whose salary lower bound is non-null and strictly greater
than the average. -/
theorem claim_C3_above_average (st : DBState) (hwf : wf st) :
    (get_avg_salary st = 0 → get_vacancies_with_higher_salary st = [])
    ∧ (∀ row ∈ get_vacancies_with_higher_salary st,
        ∃ v ∈ st.vacancies, ∃ e ∈ st.employers, e.employer_id = v.employer_id ∧
          row = mkJoined e v ∧
          ∃ s : Int, v.salary_from = some s ∧ get_avg_salary st < (s : ℚ))
    ∧ (∀ v ∈ st.vacancies, ∀ s : Int, v.salary_from = some s →
        get_avg_salary st < (s : ℚ) → get_avg_salary st ≠ 0 →
        ∃ e ∈ st.employers, e.employer_id = v.employer_id ∧
          mkJoined e v ∈ get_vacancies_with_higher_salary st) := by
  refine ⟨fun h0 => by simp [get_vacancies_with_higher_salary, h0], ?_, ?_⟩
  · intro row hrow
    unfold get_vacancies_with_higher_salary at hrow
    by_cases h0 : get_avg_salary st = 0
    · simp [h0] at hrow
    · rw [if_neg h0, (List.perm_insertionSort salaryGE _).mem_iff,
        List.mem_filter] at hrow
      obtain ⟨hjoin, hpred⟩ := hrow
      obtain ⟨v, hv, e, he, heq, rfl⟩ := mem_joinRows.mp hjoin
      refine ⟨v, hv, e, he, heq, rfl, ?_⟩
      simp only [mkJoined] at hpred
      cases hs : v.salary_from with
      | none => rw [hs] at hpred; simp at hpred
      | some s =>
        rw [hs] at hpred
        exact ⟨s, rfl, of_decide_eq_true hpred⟩
  · intro v hv s hs havg h0
    obtain ⟨e, he, heq⟩ := hwf.2.2 v hv
    refine ⟨e, he, heq, ?_⟩
    unfold get_vacancies_with_higher_salary
    rw [if_neg h0, (List.perm_insertionSort salaryGE _).mem_iff,
      List.mem_filter]
    refine ⟨mem_joinRows.mpr ⟨v, hv, e, he, heq, rfl⟩, ?_⟩
    simp only [mkJoined, hs]
    exact decide_eq_true havg

/-- Witness for C3: over lower bounds [1000, 3000, 5000] (average 3000)
the vacancy with bound 5000 is returned. -/
theorem claim_C3_witness :
    wf avgExampleState
    ∧ ∃ e ∈ avgExampleState.employers, e.employer_id = 1 ∧
        mkJoined e ⟨12, 1, "Cook", some 5000, none, none, "z"⟩ ∈
          get_vacancies_with_higher_salary avgExampleState := by
  have hv3 : salaryVals avgExampleState = [1000, 3000, 5000] := by decide
  have havg : get_avg_salary avgExampleState = 3000 := by
    simp only [get_avg_salary, hv3]
    norm_num
  refine ⟨by decide, (claim_C3_above_average avgExampleState (by decide)).2.2
    ⟨12, 1, "Cook", some 5000, none, none, "z"⟩ (by decide) 5000 rfl ?_ ?_⟩
  · rw [havg]; norm_num
  · rw [havg]; norm_num

/-! ### Claim C2: keyword search -/

/-- `leadsIn` decides the initial-segment relation. -/
theorem leadsIn_iff : ∀ n h : List Char,
    leadsIn n h = true ↔ ∃ r, h = n ++ r := by
  intro n
  induction n with
  | nil => intro h; simp [leadsIn]
  | cons c cs ih =>
    intro h
    cases h with
    | nil => simp [leadsIn]
    | cons d ds =>
      simp only [leadsIn, Bool.and_eq_true, beq_iff_eq, ih ds,
        List.cons_append, List.cons.injEq]
      constructor
      · rintro ⟨rfl, r, rfl⟩
        exact ⟨r, rfl, rfl⟩
      · rintro ⟨r, rfl, rfl⟩
        exact ⟨rfl, r, rfl⟩

/-- `occursIn` decides contiguous containment. -/
theorem occursIn_iff : ∀ h n : List Char,
    occursIn n h = true ↔ ∃ l r, h = l ++ n ++ r := by
  intro h
  induction h with
  | nil =>
    intro n
    simp only [occursIn, leadsIn_iff]
    constructor
    · rintro ⟨r, hr⟩
      exact ⟨[], r, by simpa using hr⟩
    · rintro ⟨l, r, hr⟩
      rcases List.append_eq_nil.mp (List.append_eq_nil.mp hr.symm).1 with ⟨h1, h2⟩
      exact ⟨r, by simp [h2, (List.append_eq_nil.mp hr.symm).2]⟩
  | cons d h2 ih =>
    intro n
    simp only [occursIn, Bool.or_eq_true, leadsIn_iff, ih]
    constructor
    · rintro (⟨r, hr⟩ | ⟨l, r, hr⟩)
      · exact ⟨[], r, by simpa using hr⟩
      · exact ⟨d :: l, r, by simp [hr]⟩
    · rintro ⟨l, r, hr⟩
      cases l with
      | nil => exact Or.inl ⟨r, by simpa using hr⟩
      | cons x l2 =>
        simp only [List.cons_append, List.cons.injEq] at hr
        exact Or.inr ⟨l2, r, hr.2⟩

/-- A lone `%` pattern matches every string. -/
theorem likeMatch_percent_all : ∀ s, likeMatch ['%'] s = true := by
  intro s
  induction s with
  | nil => simp [likeMatch]
  | cons d s2 ih => simp [likeMatch, ih]

/-- A pattern starting with `%` matches a string exactly when the rest of
the pattern matches some suffix. -/
theorem likeMatch_percent_cons (ps : List Char) :
    ∀ s, likeMatch ('%' :: ps) s = true ↔
      ∃ s1 s2, s = s1 ++ s2 ∧ likeMatch ps s2 = true := by
  intro s
  induction s with
  | nil =>
    rw [likeMatch, if_pos rfl]
    constructor
    · intro hm
      exact ⟨[], [], rfl, hm⟩
    · rintro ⟨s1, s2, hs, hm⟩
      rcases List.append_eq_nil.mp hs.symm with ⟨rfl, rfl⟩
      exact hm
  | cons d s2 ih =>
    have hstep : likeMatch ('%' :: ps) (d :: s2) =
        (likeMatch ps (d :: s2) || likeMatch ('%' :: ps) s2) := by
      rw [likeMatch, if_neg (by decide), if_pos rfl]
    rw [hstep, Bool.or_eq_true]
    constructor
    · rintro (hm | hm)
      · exact ⟨[], d :: s2, rfl, hm⟩
      · obtain ⟨s1, s3, hs, hm2⟩ := ih.mp hm
        exact ⟨d :: s1, s3, by simp [hs], hm2⟩
    · rintro ⟨s1, s3, hs, hm⟩
      cases s1 with
      | nil =>
        simp only [List.nil_append] at hs
        exact Or.inl (by rw [hs]; exact hm)
      | cons x s1b =>
        simp only [List.cons_append, List.cons.injEq] at hs
        exact Or.inr (ih.mpr ⟨s1b, s3, hs.2, hm⟩)

/-- A wildcard-free pattern segment matches literally: the string must
start with that segment, and the rest of the pattern consumes the rest. -/
theorem likeMatch_lit_append (mid q : List Char)
    (hmid : ∀ c ∈ mid, noMetaChar c) :
    ∀ s, likeMatch (mid ++ q) s = true ↔
      ∃ s2, s = mid ++ s2 ∧ likeMatch q s2 = true := by
  induction mid with
  | nil => intro s; simp
  | cons c cs ih =>
    intro s
    obtain ⟨hc1, hc2, hc3⟩ := hmid c (List.mem_cons_self c cs)
    have htail : ∀ d ∈ cs, noMetaChar d :=
      fun d hd => hmid d (List.mem_cons_of_mem c hd)
    cases s with
    | nil =>
      rw [List.cons_append, likeMatch, if_neg hc1]
      simp
    | cons d s2 =>
      have hstep : likeMatch ((c :: cs) ++ q) (d :: s2) =
          (c == d && likeMatch (cs ++ q) s2) := by
        rw [List.cons_append, likeMatch, if_neg hc3, if_neg hc1, if_neg hc2]
      rw [hstep, Bool.and_eq_true, beq_iff_eq, ih htail s2]
      constructor
      · rintro ⟨rfl, s3, rfl, hq⟩
        exact ⟨s3, rfl, hq⟩
      · rintro ⟨s3, heq, hq⟩
        simp only [List.cons_append, List.cons.injEq] at heq
        exact ⟨heq.1.symm, s3, heq.2, hq⟩

/-- The lowered LIKE parameter is `%`, the lowered keyword, `%`. -/
theorem lowerChars_search_pattern (kw : String) :
    lowerChars (search_pattern kw) = '%' :: (lowerChars kw ++ ['%']) := by
  have h1 : ("%" : String).data = ['%'] := rfl
  have h2 : Char.toLower '%' = '%' := rfl
  rw [lowerChars, search_pattern, String.data_append, String.data_append, h1]
  simp [List.map_append, h2, lowerChars]

/-- For a wildcard-free keyword, the LIKE test of the query coincides with
case-insensitive substring containment. -/
theorem likeMatch_eq_occursIn (kw : String) (hkw : noMetaKw kw)
    (t : List Char) :
    (likeMatch (lowerChars (search_pattern kw)) t = true ↔
      occursIn (lowerChars kw) t = true) := by
  rw [lowerChars_search_pattern, likeMatch_percent_cons, occursIn_iff]
  constructor
  · rintro ⟨s1, s2, rfl, hm⟩
    obtain ⟨s3, rfl, hq⟩ :=
      (likeMatch_lit_append (lowerChars kw) ['%'] hkw s2).mp hm
    exact ⟨s1, s3, by simp⟩
  · rintro ⟨l, r, rfl⟩
    refine ⟨l, lowerChars kw ++ r, by simp, ?_⟩
    exact (likeMatch_lit_append (lowerChars kw) ['%'] hkw _).mpr
      ⟨r, rfl, likeMatch_percent_all r⟩

/-- Claim C2 (amended): for every keyword free of LIKE wildcard and escape
characters, `get_vacancies_with_keyword` returns exactly the stored
vacancies (joined with their employers) whose title contains the keyword as
a case-insensitive substring, ordered by company name then title. -/
theorem claim_C2_keyword_search (st : DBState) (kw : String) (hwf : wf st)
    (hkw : noMetaKw kw) :
    List.Sorted byCompanyTitle (get_vacancies_with_keyword st kw)
    ∧ (∀ row ∈ get_vacancies_with_keyword st kw,
        ∃ v ∈ st.vacancies, ∃ e ∈ st.employers, e.employer_id = v.employer_id ∧
          row = mkJoined e v ∧ containsCI kw v.title = true)
    ∧ (∀ v ∈ st.vacancies, containsCI kw v.title = true →
        ∃ e ∈ st.employers, e.employer_id = v.employer_id ∧
          mkJoined e v ∈ get_vacancies_with_keyword st kw) := by
  refine ⟨List.sorted_insertionSort byCompanyTitle _, ?_, ?_⟩
  · intro row hrow
    unfold get_vacancies_with_keyword at hrow
    rw [(List.perm_insertionSort byCompanyTitle _).mem_iff,
      List.mem_filter] at hrow
    obtain ⟨hjoin, hpred⟩ := hrow
    obtain ⟨v, hv, e, he, heq, rfl⟩ := mem_joinRows.mp hjoin
    refine ⟨v, hv, e, he, heq, rfl, ?_⟩
    exact (likeMatch_eq_occursIn kw hkw (lowerChars v.title)).mp
      (by simpa [mkJoined] using hpred)
  · intro v hv hct
    obtain ⟨e, he, heq⟩ := hwf.2.2 v hv
    refine ⟨e, he, heq, ?_⟩
    unfold get_vacancies_with_keyword
    rw [(List.perm_insertionSort byCompanyTitle _).mem_iff, List.mem_filter]
    refine ⟨mem_joinRows.mpr ⟨v, hv, e, he, heq, rfl⟩, ?_⟩
    show likeMatch _ (lowerChars (mkJoined e v).vacancy_title) = true
    exact (likeMatch_eq_occursIn kw hkw (lowerChars v.title)).mpr hct

/-- Counterexample to C2 as stated: the keyword is passed into a LIKE
pattern unescaped, so the single-character wildcard keyword matches the
title "Cook" even though "Cook" does not contain it as a substring. -/
theorem claim_C2_counterexample :
    containsCI "_" "Cook" = false
    ∧ (get_vacancies_with_keyword keywordCexState "_").length = 1 := by
  refine ⟨by decide, ?_⟩
  have hp : lowerChars (search_pattern "_") = ['%', '_', '%'] := by decide
  have hjr : joinRows keywordCexState =
      [⟨"Acme", "Cook", none, none, none, "x"⟩] := by decide
  have hc : lowerChars "Cook" = ['c', 'o', 'o', 'k'] := by decide
  unfold get_vacancies_with_keyword
  rw [hp, hjr]
  simp [List.filter, hc, likeMatch, List.insertionSort]

/-- Witness for C2: keyword "engineer" finds the stored title
"Senior Engineer" (case-insensitive substring). -/
theorem claim_C2_witness :
    wf keywordWitnessState ∧ noMetaKw "engineer"
    ∧ containsCI "engineer" "Senior Engineer" = true
    ∧ ∃ e ∈ keywordWitnessState.employers, e.employer_id = 1 ∧
        mkJoined e ⟨10, 1, "Senior Engineer", none, none, none, "x"⟩ ∈
          get_vacancies_with_keyword keywordWitnessState "engineer" := by
  refine ⟨by decide, by decide, by decide, ?_⟩
  exact (claim_C2_keyword_search keywordWitnessState "engineer" (by decide)
    (by decide)).2.2 ⟨10, 1, "Senior Engineer", none, none, none, "x"⟩
    (by decide) (by decide)

/-! ### Claims C9 and C10: the ingestion loop -/

/-- Claim C9: `load_data_to_db` handles the configured ids strictly in list
order; an id whose employer fetch misses contributes nothing (the run over
the list with that id removed gives the same state), and an id whose fetch
succeeds first upserts the employer and then inserts that employer's
vacancies one by one, before the remaining ids are processed. -/
theorem claim_C9_ingestion_order (api : ApiClient) (st : DBState)
    (pre post : List Int) (i : Int) :
    (get_employer api i = none →
      load_data_to_db api st (pre ++ i :: post) =
        load_data_to_db api st (pre ++ post))
    ∧ (∀ emp, get_employer api i = some emp →
        load_data_to_db api st (pre ++ i :: post) =
          load_data_to_db api
            ((get_vacancies_by_employer api i).foldl
              (fun s v => (add_vacancy v i s).1)
              (add_employer emp (load_data_to_db api st pre))) post) := by
  constructor
  · intro h
    unfold load_data_to_db
    rw [List.foldl_append, List.foldl_append, List.foldl_cons]
    have : process_employer api (List.foldl (process_employer api) st pre) i =
        List.foldl (process_employer api) st pre := by
      unfold process_employer
      rw [h]
    rw [this]
  · intro emp h
    unfold load_data_to_db
    rw [List.foldl_append, List.foldl_cons]
    have : process_employer api (List.foldl (process_employer api) st pre) i =
        (get_vacancies_by_employer api i).foldl
          (fun s v => (add_vacancy v i s).1)
          (add_employer emp (List.foldl (process_employer api) st pre)) := by
      unfold process_employer
      rw [h]
    rw [this]

/-- Witness for C9 at the successful branch of the concrete source. -/
theorem claim_C9_witness :
    get_employer witnessApi 7 = some witnessEmployer
    ∧ load_data_to_db witnessApi ⟨[], []⟩ ([] ++ 7 :: [3]) =
        load_data_to_db witnessApi
          ((get_vacancies_by_employer witnessApi 7).foldl
            (fun s v => (add_vacancy v 7 s).1)
            (add_employer witnessEmployer
              (load_data_to_db witnessApi ⟨[], []⟩ []))) [3] :=
  ⟨rfl, (claim_C9_ingestion_order witnessApi ⟨[], []⟩ [] [3] 7).2
    witnessEmployer rfl⟩

/-- A vacancy row added by `add_vacancy` either was already stored or
carries the employer id passed to the call. -/
theorem add_vacancy_mem (v : VacRecord) (e : Int) (st : DBState)
    (row : VacancyRow) (h : row ∈ ((add_vacancy v e st).1).vacancies) :
    row ∈ st.vacancies ∨ row.employer_id = e := by
  rcases v with ⟨vid, vname, vsal, vurl, vemp⟩
  cases vid with
  | none => exact Or.inl h
  | some i =>
    cases vname with
    | none => exact Or.inl h
    | some n =>
      simp only [add_vacancy] at h
      split_ifs at h
      · exact Or.inl h
      · rcases List.mem_append.mp h with h2 | h2
        · exact Or.inl h2
        · rcases List.mem_singleton.mp h2 with rfl
          exact Or.inr rfl
      · exact Or.inl h

/-- Folding `add_vacancy` over a record list preserves the employers
table. -/
theorem foldl_add_vacancy_employers (vs : List VacRecord) (e : Int) :
    ∀ st : DBState,
      ((vs.foldl (fun s v => (add_vacancy v e s).1) st)).employers =
        st.employers := by
  induction vs with
  | nil => intro st; rfl
  | cons v vs ih =>
    intro st
    rw [List.foldl_cons, ih, add_vacancy_employers]

/-- Folding `add_vacancy` only adds rows carrying the passed employer id. -/
theorem foldl_add_vacancy_mem (vs : List VacRecord) (e : Int)
    (row : VacancyRow) :
    ∀ st : DBState,
      row ∈ ((vs.foldl (fun s v => (add_vacancy v e s).1) st)).vacancies →
      row ∈ st.vacancies ∨ row.employer_id = e := by
  induction vs with
  | nil => intro st h; exact Or.inl h
  | cons v vs ih =>
    intro st h
    rw [List.foldl_cons] at h
    rcases ih _ h with h2 | h2
    · exact add_vacancy_mem v e st row h2
    · exact Or.inr h2

/-- After `add_employer c`, some row carries the record's id. -/
theorem add_employer_self_mem (c : EmployerRec) (st : DBState) :
    ∃ r ∈ (add_employer c st).employers, r.employer_id = c.id := by
  unfold add_employer
  split
  case isTrue h =>
    rw [List.any_eq_true] at h
    obtain ⟨r, hr, hrb⟩ := h
    refine ⟨empRow c, ?_, rfl⟩
    have := List.mem_map_of_mem
      (fun x => if x.employer_id == c.id then empRow c else x) hr
    simpa [hrb] using this
  case isFalse h =>
    exact ⟨empRow c, List.mem_append_right _ (List.mem_singleton_self _), rfl⟩

/-- Claim C10: `add_vacancy` never reads the employer reference embedded in
the vacancy record; every vacancy row added during one iteration of the
ingestion loop carries the configured employer id of that iteration; and
when the fetched employer record carries the requested id, the employer row
upserted at the start of the iteration is the one those vacancies
reference. -/
theorem claim_C10_vacancies_reference_iteration_employer (api : ApiClient)
    (st : DBState) (e : Int) (rec : VacRecord) (x : Option Int) :
    (add_vacancy { rec with employer := x } e st = add_vacancy rec e st)
    ∧ (∀ row ∈ (process_employer api st e).vacancies,
        row ∈ st.vacancies ∨ row.employer_id = e)
    ∧ (∀ emp, get_employer api e = some emp → emp.id = e →
        ∃ r ∈ (process_employer api st e).employers, r.employer_id = e) := by
  refine ⟨?_, ?_, ?_⟩
  · rcases rec with ⟨vid, vname, vsal, vurl, vemp⟩
    cases vid <;> cases vname <;> rfl
  · intro row hrow
    unfold process_employer at hrow
    cases h : get_employer api e with
    | none => rw [h] at hrow; exact Or.inl hrow
    | some emp =>
      rw [h] at hrow
      rcases foldl_add_vacancy_mem _ e row _ hrow with h2 | h2
      · rw [add_employer_vacancies] at h2
        exact Or.inl h2
      · exact Or.inr h2
  · intro emp h hid
    unfold process_employer
    rw [h]
    obtain ⟨r, hr, hre⟩ := add_employer_self_mem emp st
    refine ⟨r, ?_, hid ▸ hre⟩
    rw [foldl_add_vacancy_employers]
    exact hr

/-- Witness for C10: with the concrete witness source, iteration 7 ends
with an employer row carrying id 7. -/
theorem claim_C10_witness :
    get_employer witnessApi 7 = some witnessEmployer
    ∧ witnessEmployer.id = 7
    ∧ ∃ r ∈ (process_employer witnessApi ⟨[], []⟩ 7).employers,
        r.employer_id = 7 :=
  ⟨rfl, rfl,
    (claim_C10_vacancies_reference_iteration_employer witnessApi ⟨[], []⟩ 7
      ⟨none, none, none, none, none⟩ none).2.2 witnessEmployer rfl rfl⟩

end HHVerify
